import Mathlib

/-!
Verification of the revision-projection engine of the doc-transformation
repository.  Paragraph text is modelled as `List Char`; a paragraph is an
ordered list of runs.  The definitions below are shallow embeddings of:

* `src/docs.py` — `apply_tracked_changes_to_chinese_doc` (span locator,
  run splicer, first-match paragraph selection), `_create_run`,
  `_wrap_tracked_change`;
* `src/doc_transformation/docx_processor.py` —
  `_get_paragraph_text_with_structure`, `_extract_changes_from_english_docx`,
  `_apply_insertion_change`, `_apply_deletion_change`, `_create_updated_docx`.

Machine-level XML details that no claim depends on (namespace prefixes,
attribute serialisation order) are folded into opaque fields.
-/

namespace DocTransform

/-- Python `str.strip()` on a character list (whitespace at both ends). -/
def trim (l : List Char) : List Char :=
  ((l.dropWhile Char.isWhitespace).reverse.dropWhile Char.isWhitespace).reverse

/-- Python `haystack.find(needle)` scanning from start offset `i`:
first index at which `pat` occurs, `none` when absent
(`str.find` returns `-1`; the fallible result is modelled as `Option`). -/
def findSubFrom (pat : List Char) : List Char → Nat → Option Nat
  | [], i => if pat.isPrefixOf [] then some i else none
  | c :: rest, i =>
      if pat.isPrefixOf (c :: rest) then some i else findSubFrom pat rest (i + 1)

/-- Python `haystack.find(needle)` (first occurrence, exact case-sensitive). -/
def findSub (hay pat : List Char) : Option Nat := findSubFrom pat hay 0

/-- `pat` occurs in `hay` starting at character index `k`. -/
def occursAt (hay pat : List Char) (k : Nat) : Prop :=
  pat.isPrefixOf (List.drop k hay) = true

instance (hay pat : List Char) (k : Nat) : Decidable (occursAt hay pat k) := by
  unfold occursAt; infer_instance

/-- Revision wrapper state of a run: unmarked, inside `w:ins`, inside `w:del`. -/
inductive Mark where
  | plain : Mark
  | ins : Mark
  | del : Mark
deriving DecidableEq

/-- A run of the target (Chinese) document: `text` is its `w:t` content,
`delText` its `w:delText` content, `fmt` the opaque formatting payload
(`none` for runs created fresh by `_create_run`, which carry no `rPr`). -/
structure Run where
  text : List Char
  delText : List Char
  fmt : Option Nat
  mark : Mark
deriving DecidableEq

/-- `_create_run`: fresh `<w:r><w:t>` with no formatting properties. -/
def createRun (t : List Char) : Run := ⟨t, [], none, Mark.plain⟩

/-- `_wrap_tracked_change` applied to `_create_run text`: the run sits inside
a `w:ins`/`w:del` wrapper but keeps its `w:t` text (as `docs.py` does). -/
def wrapRun (m : Mark) (t : List Char) : Run := ⟨t, [], none, m⟩

/-- Concatenation of a paragraph's run texts (Python `''.join(run_texts)`),
the `.//w:t` text in document order. -/
def concatRuns (rs : List Run) : List Char := (rs.map Run.text).flatten

/-- A located span: run indices and intra-run offsets bounding a substring
of the paragraph's concatenated text (`start_run_idx`, `start_offset`,
`end_run_idx`, `end_offset` of `docs.py`). -/
structure Span where
  startRun : Nat
  startOff : Nat
  endRun : Nat
  endOff : Nat
deriving DecidableEq

/-- The single `for i, rt in enumerate(run_texts)` loop of
`apply_tracked_changes_to_chinese_doc` (docs.py lines 107-120): walks the
run texts with cumulative position `pos`, records the start pair the first
time `run_start <= idx < run_end`, and returns with the end pair as soon as
`run_start < idx + n <= run_end` (the `break`).  Returns the pair of the
optional start and optional end results. -/
def locateLoop (idx n : Nat) :
    List (List Char) → Nat → Nat → Option (Nat × Nat) →
    Option (Nat × Nat) × Option (Nat × Nat)
  | [], _, _, st => (st, none)
  | rt :: rest, i, pos, st =>
      let st' := if st = none ∧ pos ≤ idx ∧ idx < pos + rt.length
                 then some (i, idx - pos) else st
      if st' ≠ none ∧ pos < idx + n ∧ idx + n ≤ pos + rt.length then
        (st', some (i, idx + n - pos))
      else
        locateLoop idx n rest (i + 1) (pos + rt.length) st'

/-- The span locator of docs.py (lines 94-125): find the first occurrence of
`needle` in the concatenated paragraph text, convert it to run indices and
offsets, clamping the end to the last run when the end condition is never
satisfied (lines 122-125).  A missing start (Python would then crash on
`runs[None]`) is modelled as `none`. -/
def locate (runTexts : List (List Char)) (needle : List Char) : Option Span :=
  match findSub runTexts.flatten needle with
  | none => none
  | some idx =>
      match locateLoop idx needle.length runTexts 0 0 none with
      | (none, _) => none
      | (some (sr, so), some (er, eo)) => some ⟨sr, so, er, eo⟩
      | (some (sr, so), none) =>
          some ⟨sr, so, runTexts.length - 1, (runTexts.getLastD []).length⟩

/-- `before_text = run_texts[start_run_idx][:start_offset]` (docs.py 136). -/
def beforeSplit (runTexts : List (List Char)) (sp : Span) : List Char :=
  (runTexts.getD sp.startRun []).take sp.startOff

/-- `after_text = run_texts[end_run_idx][end_offset:]` (docs.py 150). -/
def afterSplit (runTexts : List (List Char)) (sp : Span) : List Char :=
  (runTexts.getD sp.endRun []).drop sp.endOff

/-- `changed_text` (docs.py 138-148): for each covered run, the start run
contributes `rt[start_offset:]`, otherwise the end run contributes
`rt[:end_offset]`, and interior runs contribute whole (the `if`/`elif`
order of the source is kept: when the span lies in one run the start
branch wins and the text is taken to the end of the run). -/
def coveredText (runTexts : List (List Char)) (sp : Span) : List Char :=
  ((List.range' sp.startRun (sp.endRun + 1 - sp.startRun)).map (fun i =>
    let rt := runTexts.getD i []
    if i = sp.startRun then rt.drop sp.startOff
    else if i = sp.endRun then rt.take sp.endOff
    else rt)).flatten

/-- The optional fresh run inserted for a (possibly empty) split part:
`if before_text: parent.insert(pos, _create_run(before_text))`. -/
def optRun (t : List Char) : List Run :=
  if t = [] then [] else [createRun t]

/-- The run splicer of docs.py (lines 127-177): runs before the start index
and after the end index are untouched; the covered runs are removed and
replaced by an optional before run, the wrapped tracked-change run holding
`changed_text`, and an optional after run. -/
def spliceRuns (runs : List Run) (sp : Span) (m : Mark) : List Run :=
  runs.take sp.startRun
    ++ optRun (beforeSplit (runs.map Run.text) sp)
    ++ [wrapRun m (coveredText (runs.map Run.text) sp)]
    ++ optRun (afterSplit (runs.map Run.text) sp)
    ++ runs.drop (sp.endRun + 1)

/-- Well-formedness of a located span with respect to a run list. -/
def Span.Valid (runs : List Run) (sp : Span) : Prop :=
  sp.startRun ≤ sp.endRun ∧ sp.endRun < runs.length ∧
  sp.startOff ≤ ((runs.map Run.text).getD sp.startRun []).length ∧
  sp.endOff ≤ ((runs.map Run.text).getD sp.endRun []).length

instance (runs : List Run) (sp : Span) : Decidable (sp.Valid runs) := by
  unfold Span.Valid; infer_instance

/-- Text of the paragraph strictly before the span. -/
def beforeTextOf (runs : List Run) (sp : Span) : List Char :=
  concatRuns (runs.take sp.startRun) ++ beforeSplit (runs.map Run.text) sp

/-- Text of the replacement runs the splicer inserts. -/
def replacementTextOf (runs : List Run) (sp : Span) : List Char :=
  coveredText (runs.map Run.text) sp

/-- Text of the paragraph strictly after the span. -/
def afterTextOf (runs : List Run) (sp : Span) : List Char :=
  afterSplit (runs.map Run.text) sp ++ concatRuns (runs.drop (sp.endRun + 1))

/-- docs.py paragraph selection (lines 86-97, 177): the first paragraph whose
concatenated text contains the needle is chosen (`break` after applying). -/
def selectPara (needle : List Char) : List (List Char) → Option Nat
  | [] => none
  | t :: rest =>
      match findSub t needle with
      | some _ => some 0
      | none => (selectPara needle rest).map (fun k => k + 1)

/-- Attributes a `w:ins`/`w:del` marker element may carry
(`w:author`, `w:date`, `w:id`); each is absent or present. -/
structure Attrs where
  author : Option (List Char)
  date : Option (List Char)
  ident : Option (List Char)
deriving DecidableEq

/-- A run of the source (English) document as `_extract_changes_from_english_docx`
sees it: `text` is the run's `.//w:t` content, `delText` its `.//w:delText`
content, and `insMark`/`delMark` record an embedded `w:ins`/`w:del` marker
with its attributes (the repository's own convention, used by
`_create_track_changes_element`, puts the marker inside the run). -/
structure XRun where
  text : List Char
  delText : List Char
  insMark : Option Attrs
  delMark : Option Attrs
deriving DecidableEq

/-- `_get_paragraph_text_with_structure` (docx_processor.py 29-41): only runs
whose `w:t` text is non-empty enter `runs_info` (`if run_text:`). -/
def runsInfo (rs : List XRun) : List XRun :=
  rs.filter (fun r => !r.text.isEmpty)

/-- One step of the context reconstruction (docx_processor.py 61-72):
a deletion-marked run contributes its `w:delText` to the original text only;
an insertion-marked run contributes its text to the current text only;
any other run contributes to both. -/
def contextsStep (acc : List Char × List Char) (r : XRun) : List Char × List Char :=
  if r.delMark.isSome then (acc.1 ++ r.delText, acc.2)
  else if r.insMark.isSome then (acc.1, acc.2 ++ r.text)
  else (acc.1 ++ r.text, acc.2 ++ r.text)

/-- Reconstructed (original, current) paragraph text before stripping
(docx_processor.py 56-73). -/
def contexts (rs : List XRun) : List Char × List Char :=
  (runsInfo rs).foldl contextsStep ([], [])

/-- `author` default (docx_processor.py 86, 108). -/
def unknownAuthor : List Char := "Unknown".toList

/-- One extracted revision record (docx_processor.py 90-122). -/
structure Record where
  isIns : Bool
  rtext : List Char
  origCtx : List Char
  currCtx : List Char
  paraIdx : Nat
  author : List Char
  date : List Char
  ident : List Char
deriving DecidableEq

/-- The per-marker record pass of `_extract_changes_from_english_docx`
(lines 81-122): walk the paragraph's `w:ins` (resp. `w:del`) markers in
document order; a marker whose trimmed text is empty is skipped; otherwise a
record is emitted, its `author` defaulting to `"Unknown"`, its `date` to the
current time and its `ident` to a fresh random id.  The ambient environment
is modelled by the streams `envDate`/`envId` indexed by the running draw
counter `k`, which advances once per emitted record. -/
def markRecords (isIns : Bool) (paraIdx : Nat) (octx cctx : List Char)
    (envDate envId : Nat → List Char) :
    List XRun → Nat → List Record × Nat
  | [], k => ([], k)
  | r :: rest, k =>
      match (if isIns then r.insMark else r.delMark) with
      | none => markRecords isIns paraIdx octx cctx envDate envId rest k
      | some a =>
          let t := trim (if isIns then r.text else r.delText)
          if t = [] then markRecords isIns paraIdx octx cctx envDate envId rest k
          else
            let rec1 : Record :=
              ⟨isIns, t, octx, cctx, paraIdx,
               a.author.getD unknownAuthor,
               a.date.getD (envDate k),
               a.ident.getD (envId k)⟩
            let rk := markRecords isIns paraIdx octx cctx envDate envId rest (k + 1)
            (rec1 :: rk.1, rk.2)

/-- Records of one paragraph (docx_processor.py 53-122): contexts are
reconstructed and stripped, paragraphs contributing no text to either
context are skipped entirely, then all insertion records precede all
deletion records. -/
def paraRecords (paraIdx : Nat) (runs : List XRun)
    (envDate envId : Nat → List Char) (k : Nat) : List Record × Nat :=
  let ctx := contexts runs
  let octx := trim ctx.1
  let cctx := trim ctx.2
  if octx = [] ∧ cctx = [] then ([], k)
  else
    let insR := markRecords true paraIdx octx cctx envDate envId runs k
    let delR := markRecords false paraIdx octx cctx envDate envId runs insR.2
    (insR.1 ++ delR.1, delR.2)

/-- Document-level extraction loop: paragraphs enumerated in document order
(every paragraph consumes an index, skipped or not). -/
def extractChangesFrom (envDate envId : Nat → List Char) :
    List (List XRun) → Nat → Nat → List Record
  | [], _, _ => []
  | p :: rest, pIdx, k =>
      let pr := paraRecords pIdx p envDate envId k
      pr.1 ++ extractChangesFrom envDate envId rest (pIdx + 1) pr.2

/-- `_extract_changes_from_english_docx` (docx_processor.py 43-124). -/
def extractChanges (doc : List (List XRun)) (envDate envId : Nat → List Char) :
    List Record :=
  extractChangesFrom envDate envId doc 0 0

/-- A marker either is absent or carries explicit `w:date` and `w:id`. -/
def attrsCompleteB : Option Attrs → Bool
  | none => true
  | some a => a.date.isSome && a.ident.isSome

/-- Every marker of the document carries explicit date and id attributes. -/
def FullyDated (doc : List (List XRun)) : Prop :=
  ∀ p ∈ doc, ∀ r ∈ p, attrsCompleteB r.insMark = true ∧ attrsCompleteB r.delMark = true

instance (doc : List (List XRun)) : Decidable (FullyDated doc) := by
  unfold FullyDated; infer_instance

/-- Position-to-run resolution of `_apply_insertion_change`
(docx_processor.py 249-260): first run with
`current_pos <= position <= current_pos + len(run_text)`, with the offset
inside that run; `none` when the loop finds no run. -/
def findInsertPos (position : Nat) : List Run → Nat → Nat → Option (Nat × Nat)
  | [], _, _ => none
  | r :: rest, i, pos =>
      if pos ≤ position ∧ position ≤ pos + r.text.length then
        some (i, position - pos)
      else findInsertPos position rest (i + 1) (pos + r.text.length)

/-- The new marked insertion run built by `_create_track_changes_element`
for type `'insertion'`: a run holding a `w:ins` wrapper with the text in
`w:t` (lines 204-214). -/
def insRunOf (t : List Char) : Run := ⟨t, [], none, Mark.ins⟩

/-- The deletion run built by `_create_track_changes_element` for type
`'deletion'`: its text lives in `w:delText`, so its `w:t` content is empty
(lines 216-226). -/
def delRunOf (t : List Char) : Run := ⟨[], t, none, Mark.del⟩

/-- `_apply_insertion_change` run-list mutation (docx_processor.py 248-298):
if no run position matches (no runs, or position beyond all runs) the new
run is appended; otherwise it is inserted before/after the target run, or
the target run is split around it keeping its formatting on both halves. -/
def applyInsertion (runs : List Run) (position : Nat) (insRun : Run) : List Run :=
  match findInsertPos position runs 0 0 with
  | none => runs ++ [insRun]
  | some (i, off) =>
      let r := runs.getD i (createRun [])
      if off = 0 then runs.take i ++ [insRun] ++ runs.drop i
      else if r.text.length ≤ off then
        runs.take (i + 1) ++ [insRun] ++ runs.drop (i + 1)
      else
        runs.take i ++ [{ r with text := r.text.take off }, insRun]
          ++ (if r.text.drop off = [] then [] else [{ r with text := r.text.drop off }])
          ++ runs.drop (i + 1)

/-- Character-position resolution of `_apply_insertion_change`
(docx_processor.py 240-246): a failed LLM position query falls back to the
end of the paragraph text; a returned value is clamped into
`[0, len(chinese_text)]`. -/
def resolvePosition (chineseText : List Char) (posResult : Except Unit Nat) : Nat :=
  match posResult with
  | .error _ => chineseText.length
  | .ok p => min p chineseText.length

/-- `_apply_insertion_change` as a whole, the two LLM interactions abstracted
into their outcomes. -/
def applyInsertionChange (para : List Run) (chineseText : List Char)
    (textToInsert : List Char) (posResult : Except Unit Nat) : List Run :=
  applyInsertion para (resolvePosition chineseText posResult) (insRunOf textToInsert)

/-- Per-insertion-record bookkeeping of `_create_updated_docx`
(lines 436-458): obtaining the translated text may raise (counted failed);
once it is obtained the insertion is applied and counted successful. -/
def processInsertion (s f : Nat) (para : List Run) (chineseText : List Char)
    (translation : Except Unit (List Char)) (posResult : Except Unit Nat) :
    (Nat × Nat) × List Run :=
  match translation with
  | .error _ => ((s, f + 1), para)
  | .ok t => ((s + 1, f), applyInsertionChange para chineseText t posResult)

/-- The per-run deletion splice of `_apply_deletion_change`
(docx_processor.py 324-390): every run overlapping `[ds, de)` is replaced by
an optional before copy, a deletion run holding the overlapped text, and an
optional after copy, both copies keeping the run's formatting; other runs
are untouched.  (The source walks `runs_to_modify` in reverse only to keep
element indices stable while mutating in place.) -/
def delSpliceWalk (ds de : Nat) : List Run → Nat → List Run
  | [], _ => []
  | r :: rest, pos =>
      let len := r.text.length
      (if pos < de ∧ ds < pos + len then
        let os := max pos ds - pos
        let oe := min (pos + len) de - pos
        (if r.text.take os = [] then [] else [{ r with text := r.text.take os }])
          ++ [delRunOf ((r.text.take oe).drop os)]
          ++ (if r.text.drop oe = [] then [] else [{ r with text := r.text.drop oe }])
      else [r]) ++ delSpliceWalk ds de rest (pos + len)

/-- `_apply_deletion_change` (docx_processor.py 300-390): the LLM
identification of the text to delete may raise (failure); a stripped-empty
or absent target substring is a failure leaving the paragraph untouched;
otherwise the covering runs are rewritten and success is reported. -/
def applyDeletionChange (para : List Run) (chineseText : List Char)
    (ident : Except Unit (List Char)) : Bool × List Run :=
  match ident with
  | .error _ => (false, para)
  | .ok raw =>
      let textToDelete := trim raw
      if textToDelete = [] then (false, para)
      else
        match findSub chineseText textToDelete with
        | none => (false, para)
        | some ds => (true, delSpliceWalk ds (ds + textToDelete.length) para 0)

/-- Per-deletion-record bookkeeping of `_create_updated_docx` (lines 449-454):
success increments the success counter, failure the failure counter. -/
def processDeletion (s f : Nat) (para : List Run) (chineseText : List Char)
    (ident : Except Unit (List Char)) : (Nat × Nat) × List Run :=
  match applyDeletionChange para chineseText ident with
  | (true, p') => ((s + 1, f), p')
  | (false, p') => ((s, f + 1), p')

/-- The `chinese_para_map` of `_create_updated_docx` (lines 404-408): a dict
keyed by paragraph text (paragraphs with blank text are skipped), so a later
paragraph with the same text overwrites an earlier one.  The value is the
paragraph's document-order index. -/
def chineseParaMapFrom (i : Nat) : List (List Char) → (List Char → Option Nat)
  | [] => fun _ => none
  | t :: rest => fun q =>
      match chineseParaMapFrom (i + 1) rest q with
      | some j => some j
      | none => if trim t ≠ [] ∧ q = t then some i else none

/-- Lookup of a paragraph element by its text, as `_create_updated_docx` and
`_find_best_chinese_paragraph_match` do. -/
def chineseParaMap (paras : List (List Char)) : List Char → Option Nat :=
  chineseParaMapFrom 0 paras

/-- One member of the docx zip archive: entry name and payload bytes. -/
structure ArchiveEntry where
  name : List Char
  payload : List Nat
deriving DecidableEq

/-- The archive member that is regenerated. -/
def docXmlPath : List Char := "word/document.xml".toList

/-- The archive rebuild of `_create_updated_docx` (docx_processor.py 468-473):
every entry other than `word/document.xml` is copied through with its
original bytes, then the regenerated payload is written. -/
def createUpdatedDocx (entries : List ArchiveEntry) (newXml : List Nat) :
    List ArchiveEntry :=
  entries.filter (fun e => !(e.name = docXmlPath : Bool)) ++ [⟨docXmlPath, newXml⟩]

/-- Total text length of a list of run texts. -/
def textLen (rts : List (List Char)) : Nat := (rts.map List.length).sum

theorem textLen_nil : textLen [] = 0 := rfl

theorem textLen_cons (rt : List Char) (rest : List (List Char)) :
    textLen (rt :: rest) = rt.length + textLen rest := by
  simp [textLen]

theorem findSubFrom_some (pat : List Char) :
    ∀ (hay : List Char) (i r : Nat), findSubFrom pat hay i = some r →
      i ≤ r ∧ pat.isPrefixOf (hay.drop (r - i)) = true ∧
      ∀ l, l < r - i → ¬ pat.isPrefixOf (hay.drop l) = true := by
  intro hay
  induction hay with
  | nil =>
      intro i r h
      unfold findSubFrom at h
      by_cases hp : pat.isPrefixOf ([] : List Char) = true
      · rw [if_pos hp] at h
        obtain rfl : i = r := by injection h
        refine ⟨le_refl i, ?_, ?_⟩
        · simpa using hp
        · intro l hl; omega
      · rw [if_neg hp] at h; exact absurd h (by simp)
  | cons c rest ih =>
      intro i r h
      unfold findSubFrom at h
      by_cases hp : pat.isPrefixOf (c :: rest) = true
      · rw [if_pos hp] at h
        obtain rfl : i = r := by injection h
        refine ⟨le_refl i, by simpa using hp, ?_⟩
        intro l hl; omega
      · rw [if_neg hp] at h
        obtain ⟨hle, hpre, hmin⟩ := ih (i + 1) r h
        refine ⟨by omega, ?_, ?_⟩
        · have hri : r - i = (r - (i + 1)) + 1 := by omega
          rw [hri]
          simpa using hpre
        · intro l hl
          match l with
          | 0 => simpa using hp
          | Nat.succ l' =>
              have : l' < r - (i + 1) := by omega
              simpa using hmin l' this

theorem findSubFrom_none (pat : List Char) :
    ∀ (hay : List Char) (i : Nat), findSubFrom pat hay i = none →
      ∀ l, ¬ pat.isPrefixOf (hay.drop l) = true := by
  intro hay
  induction hay with
  | nil =>
      intro i h l
      unfold findSubFrom at h
      by_cases hp : pat.isPrefixOf ([] : List Char) = true
      · rw [if_pos hp] at h; exact absurd h (by simp)
      · simpa using hp
  | cons c rest ih =>
      intro i h l
      unfold findSubFrom at h
      by_cases hp : pat.isPrefixOf (c :: rest) = true
      · rw [if_pos hp] at h; exact absurd h (by simp)
      · rw [if_neg hp] at h
        match l with
        | 0 => simpa using hp
        | Nat.succ l' => simpa using ih (i + 1) h l'

/-- `str.find` soundness: a returned index is an occurrence and is minimal. -/
theorem findSub_spec (hay pat : List Char) (r : Nat) (h : findSub hay pat = some r) :
    occursAt hay pat r ∧ ∀ l, l < r → ¬ occursAt hay pat l := by
  obtain ⟨_, hpre, hmin⟩ := findSubFrom_some pat hay 0 r h
  exact ⟨by simpa [occursAt] using hpre,
         fun l hl => by simpa [occursAt] using hmin l (by omega)⟩

/-- `str.find` completeness: `none` only when the pattern never occurs. -/
theorem findSub_none (hay pat : List Char) (h : findSub hay pat = none) :
    ∀ l, ¬ occursAt hay pat l := by
  intro l
  simpa [occursAt] using findSubFrom_none pat hay 0 h l

/-- An occurrence forces the first character of the pattern inside the text:
`occursAt` at `k` with a non-empty pattern needs `k + pat.length ≤ hay.length`. -/
theorem occursAt_le_length (hay pat : List Char) (k : Nat) (h : occursAt hay pat k) :
    pat.length + k ≤ hay.length ∨ pat = [] := by
  by_cases hp : pat = []
  · exact Or.inr hp
  · left
    unfold occursAt at h
    have hpre : pat <+: hay.drop k := by
      simpa [List.isPrefixOf_iff_prefix] using h
    have hlen := hpre.length_le
    rw [List.length_drop] at hlen
    rcases Nat.lt_or_ge k hay.length with hk | hk
    · omega
    · exfalso
      have : hay.drop k = [] := List.drop_eq_nil_of_le hk
      rw [this] at hpre
      exact hp (List.prefix_nil.mp hpre)

/-- Once the start pair is recorded, the loop returns it unchanged. -/
theorem locateLoop_fst_some (idx n : Nat) :
    ∀ (rts : List (List Char)) (i pos : Nat) (v : Nat × Nat),
      (locateLoop idx n rts i pos (some v)).1 = some v := by
  intro rts
  induction rts with
  | nil => intro i pos v; rfl
  | cons rt rest ih =>
      intro i pos v
      simp only [locateLoop]
      rw [if_neg (by simp :
        ¬((some v : Option (Nat × Nat)) = none ∧ pos ≤ idx ∧ idx < pos + rt.length))]
      split
      · rfl
      · exact ih (i + 1) (pos + rt.length) v

/-- When the match start lies inside the walked texts, the loop records the
start run and intra-run offset whose cumulative position recovers `idx`. -/
theorem locateLoop_start (idx n : Nat) :
    ∀ (rts : List (List Char)) (i pos : Nat),
      pos ≤ idx → idx < pos + textLen rts →
      ∃ j so, (locateLoop idx n rts i pos none).1 = some (i + j, so) ∧
        j < rts.length ∧
        pos + textLen (rts.take j) ≤ idx ∧
        idx < pos + textLen (rts.take j) + (rts.getD j []).length ∧
        so = idx - (pos + textLen (rts.take j)) := by
  intro rts
  induction rts with
  | nil =>
      intro i pos hle hlt
      rw [textLen_nil] at hlt
      omega
  | cons rt rest ih =>
      intro i pos hle hlt
      simp only [locateLoop, true_and]
      by_cases hin : idx < pos + rt.length
      · rw [if_pos (⟨hle, hin⟩ : pos ≤ idx ∧ idx < pos + rt.length)]
        refine ⟨0, idx - pos, ?_, by simp, ?_, ?_, ?_⟩
        · split
          · simp
          · simpa using locateLoop_fst_some idx n rest (i + 1) (pos + rt.length) (i, idx - pos)
        · simp only [List.take_zero, textLen_nil]; omega
        · simp only [List.take_zero, textLen_nil, List.getD_cons_zero]; omega
        · simp only [List.take_zero, textLen_nil]; omega
      · rw [if_neg (show ¬(pos ≤ idx ∧ idx < pos + rt.length) from fun h => hin h.2)]
        rw [if_neg (show ¬((none : Option (Nat × Nat)) ≠ none ∧ pos < idx + n ∧
            idx + n ≤ pos + rt.length) from fun h => h.1 rfl)]
        have hle' : pos + rt.length ≤ idx := by omega
        have hlt' : idx < (pos + rt.length) + textLen rest := by
          rw [textLen_cons] at hlt; omega
        obtain ⟨j', so, hfst, hjlt, hlow, hhigh, hso⟩ := ih (i + 1) (pos + rt.length) hle' hlt'
        refine ⟨j' + 1, so, ?_, ?_, ?_, ?_, ?_⟩
        · rw [show i + (j' + 1) = i + 1 + j' by omega]; exact hfst
        · simp only [List.length_cons]; omega
        · simp only [List.take_succ_cons, textLen_cons]; omega
        · simp only [List.take_succ_cons, textLen_cons, List.getD_cons_succ]; omega
        · simp only [List.take_succ_cons, textLen_cons]; omega

/-- When the match end lies inside the walked texts (and the walk has not
passed it), the loop records the end run and end offset whose cumulative
position recovers `idx + n`. -/
theorem locateLoop_end (idx n : Nat) (hn : 1 ≤ n) :
    ∀ (rts : List (List Char)) (i pos : Nat) (st : Option (Nat × Nat)),
      (st ≠ none ∨ pos ≤ idx) → pos < idx + n → idx + n ≤ pos + textLen rts →
      ∃ j eo, (locateLoop idx n rts i pos st).2 = some (i + j, eo) ∧
        j < rts.length ∧
        pos + textLen (rts.take j) < idx + n ∧
        idx + n ≤ pos + textLen (rts.take j) + (rts.getD j []).length ∧
        eo = idx + n - (pos + textLen (rts.take j)) := by
  intro rts
  induction rts with
  | nil =>
      intro i pos st _ h2 h3
      rw [textLen_nil] at h3; omega
  | cons rt rest ih =>
      intro i pos st hinv h2 h3
      have h3' : idx + n ≤ (pos + rt.length) + textLen rest := by
        rw [textLen_cons] at h3; omega
      simp only [locateLoop]
      by_cases hc : st = none ∧ pos ≤ idx ∧ idx < pos + rt.length
      · rw [if_pos hc]
        by_cases hout : (some (i, idx - pos) : Option (Nat × Nat)) ≠ none ∧
            pos < idx + n ∧ idx + n ≤ pos + rt.length
        · rw [if_pos hout]
          refine ⟨0, idx + n - pos, by simp, by simp, ?_, ?_, ?_⟩
          · simp only [List.take_zero, textLen_nil]; omega
          · simp only [List.take_zero, textLen_nil, List.getD_cons_zero]; omega
          · simp only [List.take_zero, textLen_nil]; omega
        · rw [if_neg hout]
          have h2' : pos + rt.length < idx + n := by
            by_contra hcon
            exact hout ⟨by simp, h2, by omega⟩
          obtain ⟨j', eo, hsnd, hjlt, hlow, hhigh, heo⟩ :=
            ih (i + 1) (pos + rt.length) (some (i, idx - pos)) (Or.inl (by simp)) h2' h3'
          refine ⟨j' + 1, eo, ?_, ?_, ?_, ?_, ?_⟩
          · rw [show i + (j' + 1) = i + 1 + j' from by omega]; exact hsnd
          · simp only [List.length_cons]; omega
          · simp only [List.take_succ_cons, textLen_cons]; omega
          · simp only [List.take_succ_cons, textLen_cons, List.getD_cons_succ]; omega
          · simp only [List.take_succ_cons, textLen_cons]; omega
      · rw [if_neg hc]
        by_cases hout : st ≠ none ∧ pos < idx + n ∧ idx + n ≤ pos + rt.length
        · rw [if_pos hout]
          refine ⟨0, idx + n - pos, by simp, by simp, ?_, ?_, ?_⟩
          · simp only [List.take_zero, textLen_nil]; omega
          · simp only [List.take_zero, textLen_nil, List.getD_cons_zero]; omega
          · simp only [List.take_zero, textLen_nil]; omega
        · rw [if_neg hout]
          have hinv' : st ≠ none ∨ pos + rt.length ≤ idx := by
            rcases hinv with hs | hp
            · exact Or.inl hs
            · by_cases hsn : st = none
              · right
                by_contra hcon
                exact hc ⟨hsn, hp, by omega⟩
              · exact Or.inl hsn
          have h2' : pos + rt.length < idx + n := by
            rcases hinv' with hs | hp
            · by_contra hcon
              exact hout ⟨hs, h2, by omega⟩
            · omega
          obtain ⟨j', eo, hsnd, hjlt, hlow, hhigh, heo⟩ :=
            ih (i + 1) (pos + rt.length) st hinv' h2' h3'
          refine ⟨j' + 1, eo, ?_, ?_, ?_, ?_, ?_⟩
          · rw [show i + (j' + 1) = i + 1 + j' from by omega]; exact hsnd
          · simp only [List.length_cons]; omega
          · simp only [List.take_succ_cons, textLen_cons]; omega
          · simp only [List.take_succ_cons, textLen_cons, List.getD_cons_succ]; omega
          · simp only [List.take_succ_cons, textLen_cons]; omega

theorem textLen_eq_length_flatten (rts : List (List Char)) :
    textLen rts = rts.flatten.length := by
  simp [textLen]

/-- A successful `find` on a non-empty needle always yields a full span whose
run-and-offset coordinates recover the character positions of the match. -/
theorem locate_spec (runTexts : List (List Char)) (needle : List Char) (idx : Nat)
    (hne : needle ≠ []) (hfind : findSub runTexts.flatten needle = some idx) :
    ∃ sp, locate runTexts needle = some sp ∧
      sp.startRun < runTexts.length ∧
      textLen (runTexts.take sp.startRun) + sp.startOff = idx ∧
      sp.endRun < runTexts.length ∧
      textLen (runTexts.take sp.endRun) + sp.endOff = idx + needle.length := by
  have hn : 1 ≤ needle.length := by
    cases needle with
    | nil => exact absurd rfl hne
    | cons c cs => simp
  have hocc := (findSub_spec _ _ _ hfind).1
  have hbound : needle.length + idx ≤ runTexts.flatten.length := by
    rcases occursAt_le_length _ _ _ hocc with h | h
    · exact h
    · exact absurd h hne
  rw [← textLen_eq_length_flatten] at hbound
  obtain ⟨j, so, hfst, hjlt, hlow, hhigh, hso⟩ :=
    locateLoop_start idx needle.length runTexts 0 0 (Nat.zero_le idx) (by omega)
  obtain ⟨j2, eo, hsnd, hj2lt, hlow2, hhigh2, heo⟩ :=
    locateLoop_end idx needle.length hn runTexts 0 0 none
      (Or.inr (Nat.zero_le idx)) (by omega) (by omega)
  simp only [Nat.zero_add] at hfst hsnd
  have hpair : locateLoop idx needle.length runTexts 0 0 none =
      (some (j, so), some (j2, eo)) := by
    rw [← hfst, ← hsnd]
  refine ⟨⟨j, so, j2, eo⟩, ?_, hjlt, ?_, hj2lt, ?_⟩
  · simp only [locate, hfind, hpair]
  · show textLen (runTexts.take j) + so = idx
    omega
  · show textLen (runTexts.take j2) + eo = idx + needle.length
    omega

theorem concatRuns_eq (runs : List Run) :
    concatRuns runs = (runs.map Run.text).flatten := rfl

/-- C2: for every paragraph run sequence and every non-empty needle occurring
at two or more positions of the concatenated paragraph text, the locator
returns the span of the first (lowest start index) occurrence — its
run/offset coordinates decode to the least match position, and the span end
decodes to that position plus the needle length — using exact case-sensitive
matching; an absent needle yields no-match. -/
theorem locate_first_occurrence :
    (∀ (runs : List Run) (needle : List Char) (m m' : Nat),
      needle ≠ [] →
      occursAt (concatRuns runs) needle m →
      occursAt (concatRuns runs) needle m' →
      m < m' →
      (∀ l, occursAt (concatRuns runs) needle l → m ≤ l) →
      ∃ sp, locate (runs.map Run.text) needle = some sp ∧
        textLen ((runs.map Run.text).take sp.startRun) + sp.startOff = m ∧
        textLen ((runs.map Run.text).take sp.endRun) + sp.endOff = m + needle.length) ∧
    (∀ (runs : List Run) (needle : List Char),
      (∀ l, ¬ occursAt (concatRuns runs) needle l) →
      locate (runs.map Run.text) needle = none) := by
  constructor
  · intro runs needle m m' hne hm hm' hmm' hleast
    rw [concatRuns_eq] at hm hm' hleast
    cases hf : findSub (runs.map Run.text).flatten needle with
    | none => exact absurd hm (findSub_none _ _ hf m)
    | some r =>
        obtain ⟨hoccr, hminr⟩ := findSub_spec _ _ _ hf
        have hrm : r = m := by
          have h1 : m ≤ r := hleast r hoccr
          have h2 : ¬ m < r := fun hlt => hminr m hlt hm
          omega
        subst hrm
        obtain ⟨sp, hloc, _, hstart, _, hend⟩ := locate_spec _ _ _ hne hf
        exact ⟨sp, hloc, hstart, hend⟩
  · intro runs needle habs
    rw [concatRuns_eq] at habs
    cases hf : findSub (runs.map Run.text).flatten needle with
    | none => simp [locate, hf]
    | some r => exact absurd (findSub_spec _ _ _ hf).1 (habs r)

/-- Witness for C2 at a concrete input: the needle `"ab"` occurs in the single
run `"abab"` at positions 0 and 2; the locator decodes to position 0. -/
theorem locate_first_occurrence_witness :
    ∃ sp, locate ([createRun "abab".toList].map Run.text) "ab".toList = some sp ∧
      textLen ((([createRun "abab".toList]).map Run.text).take sp.startRun) + sp.startOff = 0 ∧
      textLen ((([createRun "abab".toList]).map Run.text).take sp.endRun) + sp.endOff =
        0 + "ab".toList.length :=
  locate_first_occurrence.1 [createRun "abab".toList] "ab".toList 0 2
    (by decide) (by decide) (by decide) (by decide) (fun l _ => Nat.zero_le l)

/-- C8: when the walk records a span start but no run boundary satisfies the
end condition, the locator does not fail: it clamps the span end to the last
run, with end offset equal to that run's text length. -/
theorem locate_clamps_end (runTexts : List (List Char)) (needle : List Char)
    (idx sr so : Nat)
    (_hne : runTexts ≠ [])
    (hfind : findSub runTexts.flatten needle = some idx)
    (hloop : locateLoop idx needle.length runTexts 0 0 none = (some (sr, so), none)) :
    locate runTexts needle =
      some ⟨sr, so, runTexts.length - 1, (runTexts.getLastD []).length⟩ := by
  simp only [locate, hfind, hloop]

/-- Witness for C8 at a concrete input: the empty needle on the one-run
paragraph `"ab"` is found at 0 but never satisfies the end condition, so the
end clamps to run 0 with offset 2. -/
theorem locate_clamps_end_witness :
    ["ab".toList] ≠ ([] : List (List Char)) ∧
    locate ["ab".toList] [] = some ⟨0, 0, 0, 2⟩ :=
  ⟨by decide, locate_clamps_end ["ab".toList] [] 0 0 0 (by decide) (by decide) (by decide)⟩

theorem concatRuns_append (a b : List Run) :
    concatRuns (a ++ b) = concatRuns a ++ concatRuns b := by
  simp [concatRuns]

theorem concatRuns_optRun (t : List Char) : concatRuns (optRun t) = t := by
  unfold optRun
  split
  · simpa [concatRuns]
  · simp [concatRuns, createRun]

theorem concatRuns_wrapRun (m : Mark) (t : List Char) :
    concatRuns [wrapRun m t] = t := by
  simp [concatRuns, wrapRun]

theorem optRun_length (t : List Char) :
    (optRun t).length = if t = [] then 0 else 1 := by
  unfold optRun
  split
  · simp_all
  · simp_all

/-- C1: for every paragraph and every valid located span, after the splicer
runs: the concatenated run text equals before-text ++ replacement-text ++
after-text; the run count changes by exactly one of -k+1, -k+2, -k+3 for the
k covered runs, according to whether the before and after split parts are
non-empty; and no run outside the span's run index range is touched — the
prefix and suffix of the run list are identical to the input. -/
theorem spliceRuns_conservation (runs : List Run) (sp : Span) (m : Mark)
    (hv : sp.Valid runs) :
    concatRuns (spliceRuns runs sp m) =
        beforeTextOf runs sp ++ replacementTextOf runs sp ++ afterTextOf runs sp ∧
    (spliceRuns runs sp m).length + (sp.endRun + 1 - sp.startRun) =
        runs.length + 1 +
        (if beforeSplit (runs.map Run.text) sp = [] then 0 else 1) +
        (if afterSplit (runs.map Run.text) sp = [] then 0 else 1) ∧
    (((spliceRuns runs sp m).length : Int) - (runs.length : Int) =
        1 - ((sp.endRun + 1 - sp.startRun : Nat) : Int) ∨
     ((spliceRuns runs sp m).length : Int) - (runs.length : Int) =
        2 - ((sp.endRun + 1 - sp.startRun : Nat) : Int) ∨
     ((spliceRuns runs sp m).length : Int) - (runs.length : Int) =
        3 - ((sp.endRun + 1 - sp.startRun : Nat) : Int)) ∧
    (spliceRuns runs sp m).take sp.startRun = runs.take sp.startRun ∧
    (spliceRuns runs sp m).drop
        (sp.startRun + (if beforeSplit (runs.map Run.text) sp = [] then 0 else 1) + 1 +
         (if afterSplit (runs.map Run.text) sp = [] then 0 else 1)) =
      runs.drop (sp.endRun + 1) := by
  obtain ⟨hse, herun, hsoff, heoff⟩ := hv
  have hsr : sp.startRun ≤ runs.length := by omega
  have hlenA : (runs.take sp.startRun).length = sp.startRun := by
    rw [List.length_take]; omega
  have hlen : (spliceRuns runs sp m).length =
      sp.startRun + (if beforeSplit (runs.map Run.text) sp = [] then 0 else 1) + 1 +
      (if afterSplit (runs.map Run.text) sp = [] then 0 else 1) +
      (runs.length - (sp.endRun + 1)) := by
    simp only [spliceRuns, List.length_append, hlenA, optRun_length,
      List.length_singleton, List.length_drop]
  refine ⟨?_, ?_, ?_, ?_, ?_⟩
  · simp only [spliceRuns, concatRuns_append, concatRuns_optRun, concatRuns_wrapRun,
      beforeTextOf, replacementTextOf, afterTextOf, List.append_assoc]
  · rw [hlen]; omega
  · rw [hlen]
    split_ifs <;> omega
  · conv_lhs => rw [show sp.startRun = (runs.take sp.startRun).length from hlenA.symm]
    simp only [spliceRuns, List.append_assoc]
    exact List.take_left _ _
  · have hL : ((runs.take sp.startRun ++ optRun (beforeSplit (runs.map Run.text) sp) ++
        [wrapRun m (coveredText (runs.map Run.text) sp)]) ++
        optRun (afterSplit (runs.map Run.text) sp)).length =
        sp.startRun + (if beforeSplit (runs.map Run.text) sp = [] then 0 else 1) + 1 +
        (if afterSplit (runs.map Run.text) sp = [] then 0 else 1) := by
      simp only [List.length_append, hlenA, optRun_length, List.length_singleton]
    exact List.drop_left' hL

/-- Scenario A paragraph of the spec: runs `"Hello "` and `"world"` with
distinct opaque formatting payloads. -/
def scenarioA : List Run :=
  [⟨"Hello ".toList, [], some 1, Mark.plain⟩, ⟨"world".toList, [], some 2, Mark.plain⟩]

/-- Witness for C1 at the concrete Scenario A input: span `(0, 3, 1, 2)`
(the needle `"lo wo"`) is valid and the spliced paragraph conserves its text
and leaves the (empty) prefix untouched. -/
theorem spliceRuns_conservation_witness :
    Span.Valid scenarioA ⟨0, 3, 1, 2⟩ ∧
    concatRuns (spliceRuns scenarioA ⟨0, 3, 1, 2⟩ Mark.del) =
      beforeTextOf scenarioA ⟨0, 3, 1, 2⟩ ++ replacementTextOf scenarioA ⟨0, 3, 1, 2⟩ ++
        afterTextOf scenarioA ⟨0, 3, 1, 2⟩ ∧
    (spliceRuns scenarioA ⟨0, 3, 1, 2⟩ Mark.del).take 0 = scenarioA.take 0 :=
  have h := spliceRuns_conservation scenarioA ⟨0, 3, 1, 2⟩ Mark.del (by decide)
  ⟨by decide, h.1, h.2.2.2.1⟩

/-- C3: a deletion whose resolved target substring is stripped-empty, or does
not occur verbatim in the target paragraph's current concatenated text, is a
soft failure: `_apply_deletion_change` returns `False`, the paragraph is left
unchanged, and the failure counter is incremented by exactly one. -/
theorem applyDeletionChange_failure (s f : Nat) (para : List Run) (raw : List Char)
    (h : trim raw = [] ∨ findSub (concatRuns para) (trim raw) = none) :
    applyDeletionChange para (concatRuns para) (Except.ok raw) = (false, para) ∧
    processDeletion s f para (concatRuns para) (Except.ok raw) = ((s, f + 1), para) := by
  have happ : applyDeletionChange para (concatRuns para) (Except.ok raw) = (false, para) := by
    unfold applyDeletionChange
    rcases h with h | h
    · simp [h]
    · by_cases he : trim raw = []
      · simp [he]
      · simp [he, h]
  refine ⟨happ, ?_⟩
  unfold processDeletion
  rw [happ]

/-- Witness for C3 at a concrete input: `"zz"` does not occur in the one-run
paragraph `"abc"`, so the deletion fails, the paragraph is unchanged, and the
failure counter goes from 7 to 8. -/
theorem applyDeletionChange_failure_witness :
    applyDeletionChange [createRun "abc".toList] (concatRuns [createRun "abc".toList])
        (Except.ok "zz".toList) = (false, [createRun "abc".toList]) ∧
    processDeletion 4 7 [createRun "abc".toList] (concatRuns [createRun "abc".toList])
        (Except.ok "zz".toList) = ((4, 7 + 1), [createRun "abc".toList]) :=
  applyDeletionChange_failure 4 7 [createRun "abc".toList] "zz".toList (Or.inr (by decide))

/-- C9: an insertion applied to a paragraph with zero runs appends the new
marked insertion run directly, making it the paragraph's sole run. -/
theorem applyInsertion_empty_paragraph (position : Nat) (r : Run) :
    applyInsertion [] position r = [r] := by
  simp [applyInsertion, findInsertPos]

/-- C10: for a matched insertion record, position resolution never produces a
per-record failure — a failed or out-of-range position falls back to the end
of the paragraph text (and the applied position never exceeds it) and the
success counter is incremented; only a failure while obtaining the
replacement text increments the failure counter. -/
theorem processInsertion_counts (s f : Nat) (para : List Run)
    (chineseText t : List Char) (posResult : Except Unit Nat) (e : Unit) :
    processInsertion s f para chineseText (Except.ok t) posResult =
      ((s + 1, f), applyInsertionChange para chineseText t posResult) ∧
    processInsertion s f para chineseText (Except.error e) posResult = ((s, f + 1), para) ∧
    resolvePosition chineseText (Except.error e) = chineseText.length ∧
    (∀ p, resolvePosition chineseText (Except.ok p) ≤ chineseText.length) := by
  refine ⟨rfl, rfl, rfl, fun p => ?_⟩
  simp [resolvePosition]

/-- C5: the rebuilt archive copies every entry other than `word/document.xml`
through unchanged (same name, same payload bytes, same order) and only the
primary XML payload is regenerated. -/
theorem createUpdatedDocx_frame (entries : List ArchiveEntry) (newXml : List Nat) :
    (createUpdatedDocx entries newXml).filter (fun e => !(e.name = docXmlPath : Bool)) =
      entries.filter (fun e => !(e.name = docXmlPath : Bool)) ∧
    (⟨docXmlPath, newXml⟩ : ArchiveEntry) ∈ createUpdatedDocx entries newXml ∧
    (∀ e : ArchiveEntry, e.name ≠ docXmlPath →
      (e ∈ createUpdatedDocx entries newXml ↔ e ∈ entries)) := by
  refine ⟨?_, ?_, ?_⟩
  · simp [createUpdatedDocx, List.filter_append, List.filter_filter]
  · simp [createUpdatedDocx]
  · intro e hnd
    simp only [createUpdatedDocx, List.mem_append, List.mem_filter, List.mem_singleton]
    constructor
    · rintro (⟨hm, _⟩ | hd)
      · exact hm
      · exact absurd (by rw [hd]) hnd
    · intro hm
      exact Or.inl ⟨hm, by simpa using hnd⟩

/-- Witness for C5 at a concrete input: a media entry distinct from
`word/document.xml` survives the rebuild exactly when it was in the input. -/
theorem createUpdatedDocx_frame_witness :
    (⟨"word/media/image1.png".toList, [7, 7]⟩ : ArchiveEntry) ∈
        createUpdatedDocx [⟨"word/media/image1.png".toList, [7, 7]⟩, ⟨docXmlPath, [1]⟩] [2] ↔
      (⟨"word/media/image1.png".toList, [7, 7]⟩ : ArchiveEntry) ∈
        [(⟨"word/media/image1.png".toList, [7, 7]⟩ : ArchiveEntry), ⟨docXmlPath, [1]⟩] :=
  (createUpdatedDocx_frame [⟨"word/media/image1.png".toList, [7, 7]⟩, ⟨docXmlPath, [1]⟩] [2]).2.2
    ⟨"word/media/image1.png".toList, [7, 7]⟩ (by decide)

/-- C6 counterexample: with two identical paragraphs `"AA"`, the
text-to-paragraph map of `_create_updated_docx` resolves the text to
paragraph 1 (the last), not paragraph 0 (the first), refuting first-wins
resolution for every document with duplicate paragraph texts. -/
theorem chineseParaMap_duplicate_cex :
    chineseParaMap ["AA".toList, "AA".toList] "AA".toList = some 1 ∧
    chineseParaMap ["AA".toList, "AA".toList] "AA".toList ≠ some 0 := by
  decide

theorem chineseParaMapFrom_none (q : List Char) :
    ∀ (paras : List (List Char)) (i : Nat), chineseParaMapFrom i paras q = none →
      ∀ k, k < paras.length → ¬(trim q ≠ [] ∧ paras.getD k [] = q) := by
  intro paras
  induction paras with
  | nil =>
      intro i _ k hk
      simp at hk
  | cons t rest ih =>
      intro i h k hk
      simp only [chineseParaMapFrom] at h
      cases hrest : chineseParaMapFrom (i + 1) rest q with
      | some j => rw [hrest] at h; exact absurd h (by simp)
      | none =>
          rw [hrest] at h
          by_cases hc : trim t ≠ [] ∧ q = t
          · rw [if_pos hc] at h; exact absurd h (by simp)
          · match k with
            | 0 =>
                rintro ⟨hq, hget⟩
                simp only [List.getD_cons_zero] at hget
                exact hc ⟨by rw [hget]; exact hq, hget.symm⟩
            | Nat.succ k' =>
                have hk' : k' < rest.length := by simpa using hk
                simpa using ih (i + 1) hrest k' hk'

theorem chineseParaMapFrom_some (q : List Char) :
    ∀ (paras : List (List Char)) (i j : Nat), chineseParaMapFrom i paras q = some j →
      i ≤ j ∧ j - i < paras.length ∧ paras.getD (j - i) [] = q ∧ trim q ≠ [] ∧
      ∀ k, j - i < k → k < paras.length → paras.getD k [] ≠ q := by
  intro paras
  induction paras with
  | nil =>
      intro i j h
      simp [chineseParaMapFrom] at h
  | cons t rest ih =>
      intro i j h
      simp only [chineseParaMapFrom] at h
      cases hrest : chineseParaMapFrom (i + 1) rest q with
      | some j' =>
          rw [hrest] at h
          have hj : j' = j := by injection h
          rw [hj] at hrest
          obtain ⟨hij, hlt, hget, hq, hmax⟩ := ih (i + 1) j hrest
          refine ⟨by omega, by simpa using by omega, ?_, hq, ?_⟩
          · rw [show j - i = (j - (i + 1)) + 1 from by omega, List.getD_cons_succ]
            exact hget
          · intro k hk1 hk2
            match k with
            | Nat.succ k' =>
                rw [List.getD_cons_succ]
                exact hmax k' (by omega) (by simpa using hk2)
      | none =>
          rw [hrest] at h
          by_cases hc : trim t ≠ [] ∧ q = t
          · rw [if_pos hc] at h
            obtain rfl : i = j := by injection h
            refine ⟨le_refl i, by simp, ?_, ?_, ?_⟩
            · simpa using hc.2.symm
            · rw [hc.2]; exact hc.1
            · intro k hk1 hk2
              match k with
              | Nat.succ k' =>
                  rw [List.getD_cons_succ]
                  intro hget
                  exact chineseParaMapFrom_none q rest (i + 1) hrest k'
                    (by simpa using hk2) ⟨by rw [hc.2]; exact hc.1, hget⟩
          · rw [if_neg hc] at h
            exact absurd h (by simp)

theorem selectPara_first (needle : List Char) :
    ∀ (paras : List (List Char)) (i : Nat), selectPara needle paras = some i →
      (findSub (paras.getD i []) needle).isSome = true ∧
      ∀ j, j < i → findSub (paras.getD j []) needle = none := by
  intro paras
  induction paras with
  | nil =>
      intro i h
      simp [selectPara] at h
  | cons t rest ih =>
      intro i h
      simp only [selectPara] at h
      cases hf : findSub t needle with
      | some r =>
          rw [hf] at h
          obtain rfl : (0 : Nat) = i := by injection h
          refine ⟨by simpa using congrArg Option.isSome hf, ?_⟩
          intro j hj
          omega
      | none =>
          rw [hf] at h
          cases hs : selectPara needle rest with
          | none => rw [hs] at h; exact absurd h (by simp)
          | some i' =>
              rw [hs] at h
              obtain rfl : i' + 1 = i := by simpa using h
              obtain ⟨hsome, hmin⟩ := ih i' hs
              refine ⟨by simpa using hsome, ?_⟩
              intro j hj
              match j with
              | 0 => simpa using hf
              | Nat.succ j' =>
                  rw [List.getD_cons_succ]
                  exact hmin j' (by omega)

/-- C6 amended: paragraph resolution is first-match in the docs.py pipeline —
the selected paragraph contains the needle and no earlier paragraph does —
but in the docx_processor pipeline the text-keyed paragraph dict resolves a
duplicated paragraph text to the LAST paragraph with that text in document
order (later dict assignments overwrite earlier ones). -/
theorem paragraph_resolution_order :
    (∀ (needle : List Char) (paras : List (List Char)) (i : Nat),
      selectPara needle paras = some i →
      (findSub (paras.getD i []) needle).isSome = true ∧
      ∀ j, j < i → findSub (paras.getD j []) needle = none) ∧
    (∀ (paras : List (List Char)) (q : List Char) (j : Nat),
      chineseParaMap paras q = some j →
      j < paras.length ∧ paras.getD j [] = q ∧
      ∀ k, j < k → k < paras.length → paras.getD k [] ≠ q) := by
  constructor
  · exact selectPara_first
  · intro paras q j h
    obtain ⟨_, hlt, hget, _, hmax⟩ := chineseParaMapFrom_some q paras 0 j h
    simp only [Nat.sub_zero] at hlt hget hmax
    exact ⟨hlt, hget, hmax⟩

/-- Witness for the amended C6 at concrete inputs: docs.py selection picks
paragraph 1 of `["xx", "Bxx"]` for needle `"B"` (and paragraph 0 has no
match); the dict map on `["AA", "AA"]` yields index 1, the last duplicate. -/
theorem paragraph_resolution_order_witness :
    ((findSub (["xx".toList, "Bxx".toList].getD 1 []) "B".toList).isSome = true ∧
      ∀ j, j < 1 → findSub (["xx".toList, "Bxx".toList].getD j []) "B".toList = none) ∧
    (1 < (["AA".toList, "AA".toList] : List (List Char)).length ∧
      ["AA".toList, "AA".toList].getD 1 [] = "AA".toList ∧
      ∀ k, 1 < k → k < (["AA".toList, "AA".toList] : List (List Char)).length →
        ["AA".toList, "AA".toList].getD k [] ≠ "AA".toList) :=
  ⟨paragraph_resolution_order.1 "B".toList ["xx".toList, "Bxx".toList] 1 (by decide),
   paragraph_resolution_order.2 ["AA".toList, "AA".toList] "AA".toList 1 (by decide)⟩

/-- A one-paragraph document whose single insertion marker carries no
`w:date` and no `w:id` attribute. -/
def docNoAttrs : List (List XRun) :=
  [[⟨"hi".toList, [], some ⟨none, none, none⟩, none⟩]]

/-- C7 counterexample: when a marker carries no explicit date/id attributes,
extraction fills them from the ambient time and a fresh random id, so two
extraction passes over the same unmodified document differ. -/
theorem extractChanges_env_dependent_cex :
    extractChanges docNoAttrs (fun _ => "T1".toList) (fun _ => "I".toList) ≠
      extractChanges docNoAttrs (fun _ => "T2".toList) (fun _ => "I".toList) := by
  decide

theorem markRecords_env_free (b : Bool) (pi : Nat) (o c : List Char)
    (d1 i1 d2 i2 : Nat → List Char) :
    ∀ (rs : List XRun),
      (∀ r ∈ rs, attrsCompleteB (if b then r.insMark else r.delMark) = true) →
      ∀ (k1 k2 : Nat),
      (markRecords b pi o c d1 i1 rs k1).1 = (markRecords b pi o c d2 i2 rs k2).1 := by
  intro rs
  induction rs with
  | nil => intro _ k1 k2; rfl
  | cons r rest ih =>
      intro hall k1 k2
      have hr := hall r (by simp)
      have hrest : ∀ x ∈ rest, attrsCompleteB (if b then x.insMark else x.delMark) = true :=
        fun x hx => hall x (by simp [hx])
      cases hm : (if b then r.insMark else r.delMark) with
      | none =>
          simp only [markRecords, hm]
          exact ih hrest k1 k2
      | some a =>
          simp only [markRecords, hm]
          rw [hm] at hr
          have hd : ∃ v, a.date = some v := by
            cases hda : a.date with
            | none => rw [attrsCompleteB, hda] at hr; simp at hr
            | some v => exact ⟨v, rfl⟩
          have hi : ∃ w, a.ident = some w := by
            cases hia : a.ident with
            | none => rw [attrsCompleteB, hia] at hr; simp at hr
            | some w => exact ⟨w, rfl⟩
          obtain ⟨v, hv⟩ := hd
          obtain ⟨w, hw⟩ := hi
          by_cases ht : trim (if b then r.text else r.delText) = []
          · rw [if_pos ht, if_pos ht]
            exact ih hrest k1 k2
          · rw [if_neg ht, if_neg ht]
            rw [hv, hw]
            simp only [Option.getD_some]
            rw [ih hrest (k1 + 1) (k2 + 1)]

theorem paraRecords_env_free (pi : Nat) (runs : List XRun)
    (d1 i1 d2 i2 : Nat → List Char) (k1 k2 : Nat)
    (hall : ∀ r ∈ runs, attrsCompleteB r.insMark = true ∧ attrsCompleteB r.delMark = true) :
    (paraRecords pi runs d1 i1 k1).1 = (paraRecords pi runs d2 i2 k2).1 := by
  simp only [paraRecords]
  by_cases hc : trim (contexts runs).1 = [] ∧ trim (contexts runs).2 = []
  · rw [if_pos hc, if_pos hc]
  · rw [if_neg hc, if_neg hc]
    rw [markRecords_env_free true pi _ _ d1 i1 d2 i2 runs
        (fun r hr => by simpa using (hall r hr).1) k1 k2,
      markRecords_env_free false pi _ _ d1 i1 d2 i2 runs
        (fun r hr => by simpa using (hall r hr).2)
        (markRecords true pi _ _ d1 i1 runs k1).2
        (markRecords true pi _ _ d2 i2 runs k2).2]

/-- C7 amended: re-running the extractor on the same unmodified document
yields identical record sequences provided every insertion/deletion marker
carries explicit `w:date` and `w:id` attributes (a missing author defaults
to the constant `"Unknown"`, so only missing date/id — filled from the
current time and a fresh random id — make passes differ). -/
theorem extractChanges_deterministic_of_dated (doc : List (List XRun))
    (h : FullyDated doc) (d1 i1 d2 i2 : Nat → List Char) :
    extractChanges doc d1 i1 = extractChanges doc d2 i2 := by
  unfold extractChanges
  suffices hgen : ∀ (ds : List (List XRun)),
      (∀ p ∈ ds, ∀ r ∈ p, attrsCompleteB r.insMark = true ∧ attrsCompleteB r.delMark = true) →
      ∀ (pIdx k1 k2 : Nat),
      extractChangesFrom d1 i1 ds pIdx k1 = extractChangesFrom d2 i2 ds pIdx k2 by
    exact hgen doc h 0 0 0
  intro ds
  induction ds with
  | nil => intro _ pIdx k1 k2; rfl
  | cons p rest ih =>
      intro hds pIdx k1 k2
      have hp := hds p (by simp)
      have hrest : ∀ x ∈ rest, ∀ r ∈ x,
          attrsCompleteB r.insMark = true ∧ attrsCompleteB r.delMark = true :=
        fun x hx => hds x (by simp [hx])
      simp only [extractChangesFrom]
      rw [paraRecords_env_free pIdx p d1 i1 d2 i2 k1 k2 hp,
        ih hrest (pIdx + 1) (paraRecords pIdx p d1 i1 k1).2 (paraRecords pIdx p d2 i2 k2).2]

/-- A one-paragraph document whose single insertion marker carries explicit
author, date and id attributes. -/
def docDated : List (List XRun) :=
  [[⟨"hi".toList, [], some ⟨some "A".toList, some "D".toList, some "7".toList⟩, none⟩]]

/-- Witness for the amended C7 at a concrete input: with all attributes
explicit, two extraction passes under different ambient environments agree. -/
theorem extractChanges_deterministic_witness :
    extractChanges docDated (fun _ => "T1".toList) (fun _ => "I1".toList) =
      extractChanges docDated (fun _ => "T2".toList) (fun _ => "I2".toList) :=
  extractChanges_deterministic_of_dated docDated (by decide)
    (fun _ => "T1".toList) (fun _ => "I1".toList) (fun _ => "T2".toList) (fun _ => "I2".toList)

/-- C4 failing evaluation: a deletion run of the usual shape — its deleted
text in `w:delText`, its `w:t` empty — is dropped by the non-empty-text
filter of `_get_paragraph_text_with_structure`, so its text reaches neither
context (the claim requires it in `original_context`); both contexts being
empty, the paragraph is then skipped and its deletion record is lost too. -/
theorem contexts_deletion_run_lost :
    contexts [⟨[], "gone".toList, none, some ⟨none, none, none⟩⟩] = ([], []) ∧
    extractChanges [[⟨[], "gone".toList, none, some ⟨none, none, none⟩⟩]]
        (fun _ => ([] : List Char)) (fun _ => ([] : List Char)) = [] := by
  decide

end DocTransform
